import Mathlib

/-!
Verification of the LavaFlow Mapper Suite core pipeline.

This file gives a shallow embedding of the three algorithmic cores of the
repository and proves properties about them:

* the per-source refresh-window merge of `process_download`
  (src/FIRMS_download.py, lines 106-148);
* the filter / sort / distance stage of `get_layout`
  (src/LavaFlow_mapper.py, lines 73-107);
* the breakthrough extraction and speed computation of `process_speed_data`
  (src/LavaFlow_speed.py, lines 39-64).

Dates and times are modelled as natural numbers (the CSV round trip through
the DD/MM/YYYY format and the zero-padded HHMM strings is value preserving),
numeric CSV fields as rationals, and fields that may fail `pd.to_numeric`
as `Option` rationals (`none` is an unparsable cell, which pandas turns
into NaN).  Pandas/NumPy float results that can be NaN or infinite are
modelled by the `PVal` type below.
-/

namespace LavaFlow

/-! ### Ingest merge (src/FIRMS_download.py, process_download) -/

/-- One row of a per-source archive CSV.  `latitude`/`longitude`/`frp`/`track`
are `none` when the cell does not parse as a float (pandas NaN after
`to_numeric(errors=coerce)`); `acq_date` is the parsed acquisition date and
`acq_time` the value of the zero-padded HHMM string.  The source id is
implicit: each archive file holds exactly one source. -/
structure DetectionRecord where
  latitude : Option ℚ
  longitude : Option ℚ
  frp : Option ℚ
  track : Option ℚ
  acq_date : ℕ
  acq_time : ℕ
deriving DecidableEq, Repr

/-- `q * 10000` rounded half to even to an integer (the rounding used by
`Series.round`), written on the numerator/denominator pair with integer
arithmetic only: with `n = num * 10000` and `d = den`, the floor of `n / d`
is `fdiv n d` and the fractional part compares to one half as
`2 * (n - f * d)` compares to `d`. -/
def roundTo4 (q : ℚ) : ℤ :=
  let n : ℤ := q.num * 10000
  let d : ℤ := (q.den : ℤ)
  let f : ℤ := Int.fdiv n d
  let t : ℤ := 2 * (n - f * d)
  if t < d then f
  else if d < t then f + 1
  else if f % 2 = 0 then f else f + 1

/-- `round(x, 4)`: rounding to 4 decimal places (FIRMS_download.py lines
137-138). -/
def round4 (q : ℚ) : ℚ := Rat.divInt (roundTo4 q) 10000

/-- The dedup key used by `drop_duplicates` (FIRMS_download.py lines 140-142):
rounded latitude, rounded longitude, acquisition date, acquisition time.
Within one archive the source id is constant, so this matches the spec key
(source_id, round(lat,4), round(lon,4), date, time) restricted to one source. -/
def dedupKey (r : DetectionRecord) : Option ℚ × Option ℚ × ℕ × ℕ :=
  (r.latitude.map round4, r.longitude.map round4, r.acq_date, r.acq_time)

/-- The distinct acquisition dates present in the new batch
(`df_new[acq_date].unique()`, line 129; used only through membership). -/
def batchDates (batch : List DetectionRecord) : List ℕ := batch.map (·.acq_date)

/-- `df_hist = df_hist[~df_hist[acq_date].isin(dates_to_refresh)]` (line 130). -/
def refreshStep (hist batch : List DetectionRecord) : List DetectionRecord :=
  hist.filter (fun r => decide (r.acq_date ∉ batchDates batch))

/-- `to_numeric(errors=coerce)` on latitude/longitude followed by
`dropna(subset=[latitude, longitude])` (lines 133-135). -/
def coerceStep (l : List DetectionRecord) : List DetectionRecord :=
  l.filter (fun r => r.latitude.isSome && r.longitude.isSome)

/-- Worker for `drop_duplicates(keep=first)`: walk the rows keeping a row iff
its dedup key has not been seen before. -/
def dedupFrom : List DetectionRecord → List (Option ℚ × Option ℚ × ℕ × ℕ) →
    List DetectionRecord
  | [], _ => []
  | r :: rs, seen =>
    if dedupKey r ∈ seen then dedupFrom rs seen
    else r :: dedupFrom rs (dedupKey r :: seen)

/-- `drop_duplicates(subset=[lat_round, lon_round, acq_date, acq_time])`
(lines 140-142), which keeps the first-seen row of every key. -/
def dropDuplicates (l : List DetectionRecord) : List DetectionRecord := dedupFrom l []

/-- The merge of `process_download` for one source.  `none` for the first
argument is the absent-archive case (`os.path.exists(filename)` false,
line 143: the archive becomes the batch unchanged); otherwise the history is
refreshed, the batch appended, coordinates coerced and duplicates dropped
(lines 124-142). -/
def merge : Option (List DetectionRecord) → List DetectionRecord → List DetectionRecord
  | none, batch => batch
  | some hist, batch => dropDuplicates (coerceStep (refreshStep hist batch ++ batch))

/-- The per-source summary reported in the log (line 148): the batch row count
(`current_batch_count`, taken before any row is dropped) and the total row
count of the merged archive.  No dropped-row count is reported. -/
def mergeSummary (hist : Option (List DetectionRecord)) (batch : List DetectionRecord) :
    ℕ × ℕ :=
  (batch.length, (merge hist batch).length)

/-- The archive invariant claimed by the spec: no two records share a dedup key. -/
def NoDupKeys (l : List DetectionRecord) : Prop :=
  l.Pairwise (fun a b => dedupKey a ≠ dedupKey b)

instance : DecidablePred NoDupKeys := fun l =>
  inferInstanceAs (Decidable (l.Pairwise _))

/-! #### Structural lemmas about the keep-first deduplication -/

theorem dedupFrom_cons_pos {r : DetectionRecord} {rs : List DetectionRecord}
    {S : List (Option ℚ × Option ℚ × ℕ × ℕ)} (h : dedupKey r ∈ S) :
    dedupFrom (r :: rs) S = dedupFrom rs S := by
  rw [dedupFrom, if_pos h]

theorem dedupFrom_cons_neg {r : DetectionRecord} {rs : List DetectionRecord}
    {S : List (Option ℚ × Option ℚ × ℕ × ℕ)} (h : dedupKey r ∉ S) :
    dedupFrom (r :: rs) S = r :: dedupFrom rs (dedupKey r :: S) := by
  rw [dedupFrom, if_neg h]

theorem dedupFrom_sublist (l : List DetectionRecord) (S : List (Option ℚ × Option ℚ × ℕ × ℕ)) :
    List.Sublist (dedupFrom l S) l := by
  induction l generalizing S with
  | nil => simp [dedupFrom]
  | cons r rs ih =>
    rw [dedupFrom]
    split
    · exact (ih S).cons r
    · exact (ih (dedupKey r :: S)).cons₂ r

theorem mem_of_mem_dedupFrom {r : DetectionRecord} {l : List DetectionRecord}
    {S : List (Option ℚ × Option ℚ × ℕ × ℕ)} (h : r ∈ dedupFrom l S) : r ∈ l :=
  (dedupFrom_sublist l S).subset h

theorem dedupFrom_key_not_seen {r : DetectionRecord} {l : List DetectionRecord}
    {S : List (Option ℚ × Option ℚ × ℕ × ℕ)} (h : r ∈ dedupFrom l S) : dedupKey r ∉ S := by
  induction l generalizing S with
  | nil => simp [dedupFrom] at h
  | cons a rs ih =>
    rw [dedupFrom] at h
    split at h
    · exact ih h
    · rcases List.mem_cons.mp h with h | h
      · subst h; assumption
      · intro hS
        exact ih h (List.mem_cons_of_mem _ hS)

theorem dedupFrom_pairwise (l : List DetectionRecord)
    (S : List (Option ℚ × Option ℚ × ℕ × ℕ)) :
    (dedupFrom l S).Pairwise (fun a b => dedupKey a ≠ dedupKey b) := by
  induction l generalizing S with
  | nil => simp [dedupFrom]
  | cons a rs ih =>
    rw [dedupFrom]
    split
    · exact ih S
    · refine List.Pairwise.cons (fun b hb hk => ?_) (ih _)
      exact dedupFrom_key_not_seen hb (by simp [hk])

theorem dedupFrom_congr_seen (l : List DetectionRecord)
    {S T : List (Option ℚ × Option ℚ × ℕ × ℕ)} (h : ∀ k, k ∈ S ↔ k ∈ T) :
    dedupFrom l S = dedupFrom l T := by
  induction l generalizing S T with
  | nil => rfl
  | cons a rs ih =>
    rw [dedupFrom, dedupFrom]
    by_cases hk : dedupKey a ∈ S
    · rw [if_pos hk, if_pos ((h _).mp hk)]
      exact ih h
    · rw [if_neg hk, if_neg (fun hT => hk ((h _).mpr hT))]
      refine congrArg (a :: ·) (ih fun k => ?_)
      simp only [List.mem_cons]
      exact or_congr Iff.rfl (h k)

theorem dedupFrom_append (X Y : List DetectionRecord)
    (S : List (Option ℚ × Option ℚ × ℕ × ℕ)) :
    dedupFrom (X ++ Y) S = dedupFrom X S ++ dedupFrom Y (X.map dedupKey ++ S) := by
  induction X generalizing S with
  | nil => simp [dedupFrom]
  | cons a X ih =>
    rw [show (a :: X) ++ Y = a :: (X ++ Y) from rfl, List.map_cons]
    by_cases hk : dedupKey a ∈ S
    · rw [dedupFrom_cons_pos hk, dedupFrom_cons_pos hk, ih S]
      refine congrArg _ (dedupFrom_congr_seen Y fun k => ?_)
      simp only [List.mem_append, List.mem_cons]
      constructor
      · rintro (h | h)
        · exact Or.inl (Or.inr h)
        · exact Or.inr h
      · rintro ((h | h) | h)
        · subst h; exact Or.inr hk
        · exact Or.inl h
        · exact Or.inr h
    · rw [dedupFrom_cons_neg hk, dedupFrom_cons_neg hk, ih (dedupKey a :: S),
        List.cons_append]
      refine congrArg _ (congrArg _ (dedupFrom_congr_seen Y fun k => ?_))
      simp only [List.mem_append, List.mem_cons]
      tauto

theorem dedupFrom_seen_irrel (Y : List DetectionRecord)
    (KS : List (Option ℚ × Option ℚ × ℕ × ℕ))
    (h : ∀ y ∈ Y, dedupKey y ∉ KS) :
    ∀ S, dedupFrom Y (KS ++ S) = dedupFrom Y S := by
  induction Y with
  | nil => intro S; rfl
  | cons y Y ih =>
    intro S
    have hy : dedupKey y ∉ KS := h y (List.mem_cons_self _ _)
    have htail : ∀ z ∈ Y, dedupKey z ∉ KS := fun z hz => h z (List.mem_cons_of_mem _ hz)
    rw [dedupFrom, dedupFrom]
    by_cases hS : dedupKey y ∈ S
    · rw [if_pos (List.mem_append.mpr (Or.inr hS)), if_pos hS]
      exact ih htail S
    · have : dedupKey y ∉ KS ++ S := by
        intro hmem
        rcases List.mem_append.mp hmem with h1 | h1
        · exact hy h1
        · exact hS h1
      rw [if_neg this, if_neg hS]
      refine congrArg _ ?_
      rw [show dedupKey y :: (KS ++ S) = [dedupKey y] ++ KS ++ S by simp]
      calc dedupFrom Y ([dedupKey y] ++ KS ++ S)
          = dedupFrom Y (KS ++ ([dedupKey y] ++ S)) := by
            refine dedupFrom_congr_seen Y fun k => ?_
            simp only [List.append_assoc, List.mem_append, List.mem_singleton]
            tauto
        _ = dedupFrom Y ([dedupKey y] ++ S) := ih htail _
        _ = dedupFrom Y (dedupKey y :: S) := rfl

theorem dedupFrom_eq_self (l : List DetectionRecord)
    (h1 : l.Pairwise (fun a b => dedupKey a ≠ dedupKey b)) :
    ∀ S, (∀ r ∈ l, dedupKey r ∉ S) → dedupFrom l S = l := by
  induction l with
  | nil => intro S _; rfl
  | cons a l ih =>
    intro S h2
    rw [dedupFrom, if_neg (h2 a (List.mem_cons_self _ _))]
    refine congrArg _ (ih h1.of_cons _ fun r hr => ?_)
    intro hmem
    rcases List.mem_cons.mp hmem with h | h
    · exact (List.rel_of_pairwise_cons h1 hr) h.symm
    · exact h2 r (List.mem_cons_of_mem _ hr) h

theorem dedupFrom_filter_key (l : List DetectionRecord) (k : Option ℚ × Option ℚ × ℕ × ℕ) :
    ∀ S, (dedupFrom l S).filter (fun r => decide (dedupKey r = k)) =
      if k ∈ S then [] else (l.filter (fun r => decide (dedupKey r = k))).take 1 := by
  induction l with
  | nil => intro S; rw [dedupFrom]; split <;> simp
  | cons a l ih =>
    intro S
    by_cases ha : dedupKey a ∈ S
    · rw [dedupFrom_cons_pos ha, ih]
      by_cases hk : k ∈ S
      · simp [hk]
      · have hak : ¬(dedupKey a = k) := fun h => hk (h ▸ ha)
        simp [hk, List.filter_cons, hak]
    · rw [dedupFrom_cons_neg ha, List.filter_cons]
      by_cases hak : dedupKey a = k
      · subst hak
        rw [ih]
        simp [ha, List.filter_cons]
      · rw [ih]
        by_cases hk : k ∈ S
        · simp [hak, hk]
        · have : ¬ k ∈ dedupKey a :: S := by
            simp only [List.mem_cons]
            rintro (h | h)
            · exact hak h.symm
            · exact hk h
          simp [hak, hk, this, List.filter_cons]

/-- Records surviving the refresh and coercion have a date outside the batch
dates, so their keys never collide with keys of batch records. -/
theorem keys_disjoint {hist batch : List DetectionRecord} {x y : DetectionRecord}
    (hx : x ∈ coerceStep (refreshStep hist batch)) (hy : y ∈ batch) :
    dedupKey x ≠ dedupKey y := by
  intro hkey
  have hdx : x.acq_date ∉ batchDates batch := by
    have h1 : x ∈ refreshStep hist batch := (List.mem_filter.mp hx).1
    have h2 := (List.mem_filter.mp h1).2
    simpa using h2
  have hdate : x.acq_date = y.acq_date := congrArg (fun p => p.2.2.1) hkey
  exact hdx (hdate ▸ List.mem_map_of_mem (·.acq_date) hy)

/-- The merge into an existing archive splits at the refresh boundary: records
kept from the history and records of the batch are deduplicated independently,
because the dedup key contains the acquisition date and the two parts have
disjoint date sets. -/
theorem merge_split (hist batch : List DetectionRecord) :
    merge (some hist) batch =
      dropDuplicates (coerceStep (refreshStep hist batch)) ++
        dropDuplicates (coerceStep batch) := by
  show dropDuplicates (coerceStep (refreshStep hist batch ++ batch)) = _
  rw [show coerceStep (refreshStep hist batch ++ batch) =
      coerceStep (refreshStep hist batch) ++ coerceStep batch from List.filter_append _ _]
  show dedupFrom _ [] = _
  rw [dedupFrom_append]
  refine congrArg _ ?_
  have hdisj : ∀ y ∈ coerceStep batch,
      dedupKey y ∉ (coerceStep (refreshStep hist batch)).map dedupKey := by
    intro y hy hmem
    rcases List.mem_map.mp hmem with ⟨x, hx, hkey⟩
    exact keys_disjoint hx ((List.mem_filter.mp hy).1) hkey
  exact dedupFrom_seen_irrel (coerceStep batch)
    ((coerceStep (refreshStep hist batch)).map dedupKey) hdisj []

/-! #### Concrete records used in counterexamples and witnesses -/

/-- An old archive record for day 6. -/
def recOld : DetectionRecord := ⟨some 1, some 2, some 10, some 1, 6, 130⟩

/-- An old archive record for day 7 (removed by a refresh of day 7). -/
def recOld7 : DetectionRecord := ⟨some 3, some 4, some 9, some 1, 7, 200⟩

/-- A fresh batch record for day 7. -/
def recA : DetectionRecord := ⟨some 1, some 2, some 10, some 1, 7, 130⟩

/-- Same dedup key as `recA` (same coordinates, date and time) but a different
frp value, so it is a distinct record with a duplicate key. -/
def recB : DetectionRecord := ⟨some 1, some 2, some 20, some 1, 7, 130⟩

/-- A record whose track field does not parse as a float. -/
def recBadTrack : DetectionRecord := ⟨some 1, some 2, some 10, none, 7, 130⟩

/-- A record whose latitude field does not parse as a float. -/
def recBadLat : DetectionRecord := ⟨none, some 2, some 10, some 1, 7, 130⟩

/-! #### Claim theorems for the merge -/

/-- C1: merging a non-empty batch into an existing archive removes every
previously archived record whose acquisition date occurs in the batch before
the batch is appended: any record of the merged archive carrying one of the
batch dates is a batch record, never a leftover history record — in
particular this holds when the batch has fewer records for such a date than
the history held. -/
theorem refresh_window_removes_batch_dates (hist batch : List DetectionRecord)
    (r : DetectionRecord) (_hne : batch ≠ []) (hmem : r ∈ merge (some hist) batch)
    (hdate : r.acq_date ∈ batchDates batch) : r ∈ batch := by
  have h1 : r ∈ coerceStep (refreshStep hist batch ++ batch) := mem_of_mem_dedupFrom hmem
  have h2 : r ∈ refreshStep hist batch ++ batch := (List.mem_filter.mp h1).1
  rcases List.mem_append.mp h2 with h3 | h3
  · have h4 := (List.mem_filter.mp h3).2
    simp only [decide_eq_true_eq] at h4
    exact absurd hdate h4
  · exact h3

/-- Witness for C1: the archive held `recOld7` for day 7; merging the
one-record batch `[recA]` (also day 7) removes it, and the surviving day-7
record is the batch record. -/
theorem refresh_window_removes_batch_dates_witness : recA ∈ [recA] :=
  refresh_window_removes_batch_dates [recOld7] [recA] recA (by decide) (by decide)
    (by decide)

/-- C2 counterexample: a first merge into an absent archive stores the batch
unchanged, so a batch containing two records with the same dedup key yields
an archive violating the no-duplicate-key invariant. -/
theorem first_merge_keeps_duplicate_keys : ¬ NoDupKeys (merge none [recA, recB]) := by
  decide

/-- C2 (amended): after a merge into an existing archive no two records of the
resulting archive share a dedup key, and for every key the archive keeps
exactly the first-seen record of the concatenated (refreshed history ++ batch,
coordinate-coerced) input with that key.  A first merge into an absent archive
stores the batch without deduplication. -/
theorem merge_existing_dedup (hist batch : List DetectionRecord) :
    NoDupKeys (merge (some hist) batch) ∧
    ∀ k, (merge (some hist) batch).filter (fun r => decide (dedupKey r = k)) =
      ((coerceStep (refreshStep hist batch ++ batch)).filter
        (fun r => decide (dedupKey r = k))).take 1 := by
  refine ⟨dedupFrom_pairwise _ [], fun k => ?_⟩
  show (dedupFrom (coerceStep (refreshStep hist batch ++ batch)) []).filter _ = _
  rw [dedupFrom_filter_key]
  simp

/-- C3 counterexample: starting from an absent archive with a batch holding
two records of equal dedup key, the single merge keeps both records but
merging the same batch again into the result deduplicates, so the record sets
differ. -/
theorem remerge_shrinks_first_archive :
    recB ∈ merge none [recA, recB] ∧
      recB ∉ merge (some (merge none [recA, recB])) [recA, recB] := by
  decide

/-- C3 (amended): for every existing starting archive, merging a batch and
then merging the same batch again into the result yields exactly the same
archive as the single merge (the same record sequence, hence the same record
set). -/
theorem merge_idempotent (hist batch : List DetectionRecord) :
    merge (some (merge (some hist) batch)) batch = merge (some hist) batch := by
  have hR1 : merge (some hist) batch =
      dropDuplicates (coerceStep (refreshStep hist batch)) ++
        dropDuplicates (coerceStep batch) := merge_split hist batch
  set X := coerceStep (refreshStep hist batch) with hX
  set Y := coerceStep batch with hY
  set DX := dropDuplicates X with hDX
  set DY := dropDuplicates Y with hDY
  have hrefresh : refreshStep (DX ++ DY) batch = DX := by
    show (DX ++ DY).filter _ = DX
    rw [List.filter_append]
    have h1 : DX.filter (fun r => decide (r.acq_date ∉ batchDates batch)) = DX := by
      rw [List.filter_eq_self]
      intro r hr
      have h2 : r ∈ refreshStep hist batch :=
        (List.mem_filter.mp (mem_of_mem_dedupFrom hr)).1
      exact (List.mem_filter.mp h2).2
    have h2 : DY.filter (fun r => decide (r.acq_date ∉ batchDates batch)) = [] := by
      rw [List.filter_eq_nil_iff]
      intro r hr
      have h3 : r ∈ batch := (List.mem_filter.mp (mem_of_mem_dedupFrom hr)).1
      simp only [decide_eq_true_eq, Decidable.not_not]
      exact List.mem_map_of_mem _ h3
    rw [h1, h2, List.append_nil]
  have hcoerce : coerceStep (DX ++ batch) = DX ++ Y := by
    show (DX ++ batch).filter _ = DX ++ Y
    rw [List.filter_append]
    refine congrArg (· ++ Y) ?_
    rw [List.filter_eq_self]
    intro r hr
    exact (List.mem_filter.mp (mem_of_mem_dedupFrom hr)).2
  have hDXnodup : DX.Pairwise (fun a b => dedupKey a ≠ dedupKey b) :=
    dedupFrom_pairwise X []
  have hdisj : ∀ y ∈ Y, dedupKey y ∉ DX.map dedupKey := by
    intro y hy hmem
    rcases List.mem_map.mp hmem with ⟨x, hx, hkey⟩
    exact keys_disjoint (mem_of_mem_dedupFrom hx) ((List.mem_filter.mp hy).1) hkey
  calc merge (some (merge (some hist) batch)) batch
      = merge (some (DX ++ DY)) batch := by rw [hR1]
    _ = dropDuplicates (coerceStep (refreshStep (DX ++ DY) batch ++ batch)) := rfl
    _ = dropDuplicates (DX ++ Y) := by rw [hrefresh, hcoerce]
    _ = dedupFrom DX [] ++ dedupFrom Y (DX.map dedupKey ++ []) := dedupFrom_append DX Y []
    _ = DX ++ DY := by
        rw [dedupFrom_eq_self DX hDXnodup [] (by simp),
          dedupFrom_seen_irrel Y (DX.map dedupKey) hdisj []]
        exact rfl
    _ = merge (some hist) batch := hR1.symm

/-- C4 counterexample: the merge only coerces latitude and longitude; a batch
record whose track field does not parse as a float is kept in the merged
archive rather than dropped (and a fortiori is never counted as dropped). -/
theorem unparsable_track_not_dropped :
    recBadTrack ∈ merge (some [recOld]) [recBadTrack] := by
  decide

/-- C4 (amended): during a merge into an existing archive, every record whose
latitude or longitude fails to parse as a float is dropped without an error
being raised; frp and track are never parsed, and the per-source summary
reports the full original batch size as merged, with no dropped count. -/
theorem bad_coords_dropped (hist batch : List DetectionRecord) (r : DetectionRecord)
    (_hr : r ∈ batch) (hbad : r.latitude = none ∨ r.longitude = none) :
    r ∉ merge (some hist) batch ∧ (mergeSummary (some hist) batch).1 = batch.length := by
  refine ⟨fun hmem => ?_, rfl⟩
  have h1 : r ∈ coerceStep (refreshStep hist batch ++ batch) := mem_of_mem_dedupFrom hmem
  have h2 := (List.mem_filter.mp h1).2
  rcases hbad with h | h <;> simp [h] at h2

/-- Witness for C4 (amended): a record with unparsable latitude is absent from
the merged archive, while the summary still reports one batch record. -/
theorem bad_coords_dropped_witness :
    recBadLat ∉ merge (some [recOld]) [recBadLat] ∧
      (mergeSummary (some [recOld]) [recBadLat]).1 = 1 :=
  bad_coords_dropped [recOld] [recBadLat] recBadLat (by decide) (Or.inl rfl)

/-! ### Breakthrough tracking (src/LavaFlow_speed.py, process_speed_data) -/

/-- A pandas float value: a finite rational, NaN (e.g. the `diff()` of the
first row), or a signed infinity (float division of a nonzero value by zero
warns but never raises, yielding an infinity). -/
inductive PVal where
  | nan : PVal
  | pinf : PVal
  | ninf : PVal
  | fin (q : ℚ) : PVal
deriving DecidableEq, Repr

/-- IEEE-style division of a finite float by a pandas float value, as performed
by `processed[distance_diff] / processed[time_diff]` (LavaFlow_speed.py
line 60): division by NaN is NaN, by an infinity is zero, by zero is a signed
infinity (or NaN for 0/0), and otherwise exact. -/
def pdiv (a : ℚ) : PVal → PVal
  | .nan => .nan
  | .pinf => .fin 0
  | .ninf => .fin 0
  | .fin b =>
    if b = 0 then (if 0 < a then .pinf else if a < 0 then .ninf else .nan)
    else .fin (a / b)

/-- One row of max_distance_per_day_VIIRS.csv as loaded by
`process_speed_data`: the parsed date (a timestamp in seconds; `date_only`
carries no time of day, so two satellites reporting on the same calendar day
yield equal dates) and the distance column. -/
structure DailyRow where
  date : ℚ
  distance_km : ℚ
deriving DecidableEq, Repr

/-- A row annotated with the running state of lines 50-53: `mx` is the value
of the `max_distance` cummax column at this row and `pm` the `prev_max`
column (the previous row's cummax, 0 for the first row via `fill_value=0`). -/
structure AnnRow where
  row : DailyRow
  mx : ℚ
  pm : ℚ
deriving DecidableEq, Repr

/-- Build the `max_distance`/`prev_max` columns (lines 50-53).  The second
argument is the cummax so far: `none` at the first row (where `prev_max` is
the fill value 0 and the cummax restarts at the row's own distance). -/
def annotate : List DailyRow → Option ℚ → List AnnRow
  | [], _ => []
  | r :: rs, m =>
    let mx : ℚ :=
      match m with
      | none => r.distance_km
      | some q => max q r.distance_km
    ⟨r, mx, m.getD 0⟩ :: annotate rs (some mx)

/-- The breakthrough test of line 54: `distance_km > prev_max`. -/
def emitted (a : AnnRow) : Bool := decide (a.pm < a.row.distance_km)

/-- A row of the propagation output (lines 56-62). -/
structure BreakthroughEvent where
  date : ℚ
  max_distance : ℚ
  prev_max : ℚ
  time_diff : PVal
  distance_diff : ℚ
  speed : PVal
deriving DecidableEq, Repr

/-- Build the output rows from the filtered (breakthrough-only) annotated
rows: `time_diff` is the date difference to the previous filtered row in
hours (`diff()` on the processed frame, NaN for its first row),
`distance_diff = (max_distance - prev_max) * 1000` metres, and
`speed = distance_diff / time_diff` (lines 58-60). -/
def mkEvents : List AnnRow → Option ℚ → List BreakthroughEvent
  | [], _ => []
  | a :: rest, pd =>
    let td : PVal :=
      match pd with
      | none => .nan
      | some t => .fin ((a.row.date - t) / 3600)
    let dd : ℚ := (a.mx - a.pm) * 1000
    ⟨a.row.date, a.mx, a.pm, td, dd, pdiv dd td⟩ :: mkEvents rest (some a.row.date)

/-- Date order on daily rows, the sort key of line 47. -/
def dateLe (a b : DailyRow) : Prop := a.date ≤ b.date

instance : DecidableRel dateLe := fun a b => inferInstanceAs (Decidable (a.date ≤ b.date))

instance : IsTotal DailyRow dateLe := ⟨fun a b => le_total a.date b.date⟩

instance : IsTrans DailyRow dateLe := ⟨fun _ _ _ h1 h2 => le_trans h1 h2⟩

/-- `process_speed_data` (lines 39-64): sort by date, build the cummax and
prev-max columns, keep the rows where the distance strictly exceeds the
previous maximum, and compute time differences and speeds on the kept rows. -/
def process_speed_data (rows : List DailyRow) : List BreakthroughEvent :=
  mkEvents ((annotate (List.insertionSort dateLe rows) none).filter emitted) none

/-! #### Structural lemmas about the cummax annotation -/

theorem annotate_pm_ge (l : List DailyRow) :
    ∀ (q : ℚ) a, a ∈ annotate l (some q) → q ≤ a.pm := by
  induction l with
  | nil => intro q a ha; simp [annotate] at ha
  | cons r rs ih =>
    intro q a ha
    rcases List.mem_cons.mp ha with h | h
    · subst h; exact le_refl q
    · exact le_trans (le_max_left q r.distance_km) (ih _ a h)

theorem annotate_pairwise (l : List DailyRow) (m : Option ℚ) :
    (annotate l m).Pairwise (fun a b => a.mx ≤ b.pm) := by
  induction l generalizing m with
  | nil => simp [annotate]
  | cons r rs ih =>
    refine List.Pairwise.cons (fun b hb => ?_) (ih _)
    exact annotate_pm_ge rs _ b hb

theorem annotate_emitted_mx (l : List DailyRow) :
    ∀ (m : Option ℚ) a, a ∈ annotate l m → a.pm < a.row.distance_km →
      a.mx = a.row.distance_km := by
  induction l with
  | nil => intro m a ha; simp [annotate] at ha
  | cons r rs ih =>
    intro m a ha hlt
    rcases List.mem_cons.mp ha with h | h
    · subst h
      cases m with
      | none => rfl
      | some q => exact max_eq_right (le_of_lt hlt)
    · exact ih _ a h hlt

theorem annotate_nonemitted (l : List DailyRow) :
    ∀ (q : ℚ) a, a ∈ annotate l (some q) → emitted a = false → a.mx = a.pm := by
  induction l with
  | nil => intro q a ha; simp [annotate] at ha
  | cons r rs ih =>
    intro q a ha hf
    rcases List.mem_cons.mp ha with h | h
    · subst h
      have : ¬ (q < r.distance_km) := by
        simpa [emitted] using hf
      exact max_eq_left (not_lt.mp this)
    · exact ih _ a h hf

theorem annotate_cons_none (r : DailyRow) (rs : List DailyRow) :
    annotate (r :: rs) none =
      ⟨r, r.distance_km, 0⟩ :: annotate rs (some r.distance_km) := rfl

theorem annotate_cons_some (r : DailyRow) (rs : List DailyRow) (q : ℚ) :
    annotate (r :: rs) (some q) =
      ⟨r, max q r.distance_km, q⟩ :: annotate rs (some (max q r.distance_km)) := rfl

theorem annotate_map_row (l : List DailyRow) (m : Option ℚ) :
    (annotate l m).map (·.row) = l := by
  induction l generalizing m with
  | nil => rfl
  | cons r rs ih => simp [annotate, ih]

/-- The prev-max column of each row equals the cummax of the preceding row. -/
theorem annotate_chain (l : List DailyRow) (x : AnnRow) :
    List.Chain (fun a b => b.pm = a.mx) x (annotate l (some x.mx)) := by
  induction l generalizing x with
  | nil => exact List.Chain.nil
  | cons r rs ih =>
    exact List.Chain.cons rfl (ih ⟨r, max x.mx r.distance_km, x.mx⟩)

/-- Filtering away rows on which the cummax did not move preserves the
prev-max/cummax chain. -/
theorem chain_filter_emitted (l : List AnnRow) :
    ∀ x, List.Chain (fun a b => b.pm = a.mx) x l →
      (∀ a ∈ l, emitted a = false → a.mx = a.pm) →
      List.Chain (fun a b => b.pm = a.mx) x (l.filter emitted) := by
  induction l with
  | nil => intro x _ _; exact List.Chain.nil
  | cons c rest ih =>
    intro x hc hskip
    rcases hc with _ | ⟨hxc, hrest⟩
    cases hce : emitted c with
    | true =>
      rw [List.filter_cons_of_pos hce]
      exact List.Chain.cons hxc
        (ih c hrest fun a ha hf => hskip a (List.mem_cons_of_mem _ ha) hf)
    | false =>
      rw [List.filter_cons_of_neg (by simp [hce])]
      have hcx : c.mx = x.mx := by
        rw [hskip c (List.mem_cons_self _ _) hce, hxc]
      have hrest2 : List.Chain (fun a b => b.pm = a.mx) x rest := by
        cases hrest with
        | nil => exact List.Chain.nil
        | cons hcb hb => exact List.Chain.cons (by rw [hcb, hcx]) hb
      exact ih x hrest2 fun a ha hf => hskip a (List.mem_cons_of_mem _ ha) hf

theorem processed_chain_some (l : List DailyRow) :
    ∀ q : ℚ, List.Chain' (fun a b => b.pm = a.mx)
      ((annotate l (some q)).filter emitted) := by
  induction l with
  | nil => intro q; exact trivial
  | cons r rs ih =>
    intro q
    rw [annotate_cons_some]
    cases hb : emitted ⟨r, max q r.distance_km, q⟩ with
    | true =>
      rw [List.filter_cons_of_pos hb]
      exact chain_filter_emitted _ _ (annotate_chain rs _) (annotate_nonemitted rs _)
    | false =>
      rw [List.filter_cons_of_neg (by simp [hb])]
      exact ih _

theorem processed_chain (l : List DailyRow) :
    List.Chain' (fun a b => b.pm = a.mx) ((annotate l none).filter emitted) := by
  cases l with
  | nil => exact trivial
  | cons r rs =>
    rw [annotate_cons_none]
    cases hb : emitted ⟨r, r.distance_km, 0⟩ with
    | true =>
      rw [List.filter_cons_of_pos hb]
      exact chain_filter_emitted _ _ (annotate_chain rs _) (annotate_nonemitted rs _)
    | false =>
      rw [List.filter_cons_of_neg (by simp [hb])]
      exact processed_chain_some rs _

/-! #### Structural lemmas about the event construction -/

theorem mkEvents_map_mx (li : List AnnRow) :
    ∀ pd, (mkEvents li pd).map (·.max_distance) = li.map (·.mx) := by
  induction li with
  | nil => intro pd; rfl
  | cons a rest ih => intro pd; simp [mkEvents, ih]

theorem mkEvents_map_date (li : List AnnRow) :
    ∀ pd, (mkEvents li pd).map (·.date) = li.map (·.row.date) := by
  induction li with
  | nil => intro pd; rfl
  | cons a rest ih => intro pd; simp [mkEvents, ih]

/-- The relation claimed between consecutive breakthrough events: the time
difference is the hours elapsed since the previous emitted event, the stored
previous maximum is the previous event's cumulative maximum, the distance
difference is their difference in metres, and the speed is their quotient. -/
def eventsRel (e e2 : BreakthroughEvent) : Prop :=
  e2.time_diff = PVal.fin ((e2.date - e.date) / 3600) ∧
  e2.prev_max = e.max_distance ∧
  e2.distance_diff = (e2.max_distance - e.max_distance) * 1000 ∧
  e2.speed = pdiv e2.distance_diff e2.time_diff

theorem mkEvents_chain (li : List AnnRow) :
    ∀ pd, List.Chain' (fun a b => b.pm = a.mx) li →
      List.Chain' eventsRel (mkEvents li pd) := by
  induction li with
  | nil => intro pd _; exact trivial
  | cons a rest ih =>
    intro pd hc
    cases rest with
    | nil => exact List.chain'_singleton _
    | cons b rest2 =>
      have hab : b.pm = a.mx := (List.chain'_cons.mp hc).1
      have hbc : List.Chain' (fun a b => b.pm = a.mx) (b :: rest2) :=
        (List.chain'_cons.mp hc).2
      refine List.chain'_cons.mpr ⟨⟨rfl, ?_, ?_, rfl⟩, ih (some a.row.date) hbc⟩
      · exact hab
      · show (b.mx - b.pm) * 1000 = (b.mx - a.mx) * 1000
        rw [hab]

theorem mkEvents_head_nan (li : List AnnRow) :
    (mkEvents li none).head?.elim True
      (fun e => e.time_diff = PVal.nan ∧ e.speed = PVal.nan) := by
  cases li with
  | nil => exact trivial
  | cons a rest => exact ⟨rfl, rfl⟩

/-! #### Claim theorems for the breakthrough tracker -/

/-- C5 counterexample: two daily rows on the same calendar date (as produced
by two satellites) that each exceed the running maximum are both emitted, so
the output dates are not strictly increasing. -/
theorem output_dates_not_strictly_increasing :
    ¬ List.Pairwise (fun e e2 : BreakthroughEvent => e.date < e2.date)
      (process_speed_data [⟨0, 1⟩, ⟨0, 2⟩]) := by
  decide

/-- C5 (amended): for every input the emitted breakthrough events are
strictly increasing in cumulative maximum distance and non-decreasing (not
necessarily strictly increasing) in date. -/
theorem breakthrough_monotone (rows : List DailyRow) :
    List.Pairwise (fun e e2 => e.max_distance < e2.max_distance)
      (process_speed_data rows) ∧
    List.Pairwise (fun e e2 => e.date ≤ e2.date) (process_speed_data rows) := by
  constructor
  · have h1 : ((annotate (List.insertionSort dateLe rows) none).filter
        emitted).Pairwise (fun a b => a.mx ≤ b.pm) :=
      (annotate_pairwise _ none).sublist (List.filter_sublist _)
    have h2 : ((annotate (List.insertionSort dateLe rows) none).filter
        emitted).Pairwise (fun a b => a.mx < b.mx) := by
      refine h1.imp_of_mem fun {a b} _ hb hle => ?_
      have hbe : emitted b = true := List.of_mem_filter hb
      have hbm : b ∈ annotate (List.insertionSort dateLe rows) none :=
        List.mem_of_mem_filter hb
      have hlt : b.pm < b.row.distance_km := by simpa [emitted] using hbe
      have hmx : b.mx = b.row.distance_km := annotate_emitted_mx _ _ b hbm hlt
      exact lt_of_le_of_lt hle (hmx ▸ hlt)
    have h3 : List.Pairwise (fun x y : ℚ => x < y)
        ((process_speed_data rows).map (·.max_distance)) := by
      rw [show (process_speed_data rows).map (·.max_distance) =
        ((annotate (List.insertionSort dateLe rows) none).filter emitted).map (·.mx)
        from mkEvents_map_mx _ none]
      exact List.pairwise_map.mpr h2
    exact List.pairwise_map.mp h3
  · have hs : List.Pairwise dateLe (List.insertionSort dateLe rows) :=
      List.sorted_insertionSort dateLe rows
    have hmap : List.Pairwise dateLe
        ((annotate (List.insertionSort dateLe rows) none).map (·.row)) := by
      rw [annotate_map_row]
      exact hs
    have h1 := List.pairwise_map.mp hmap
    have h2 : ((annotate (List.insertionSort dateLe rows) none).filter
        emitted).Pairwise (fun a b => dateLe a.row b.row) :=
      h1.sublist (List.filter_sublist _)
    have h3 : List.Pairwise (fun x y : ℚ => x ≤ y)
        ((process_speed_data rows).map (·.date)) := by
      rw [show (process_speed_data rows).map (·.date) =
        ((annotate (List.insertionSort dateLe rows) none).filter emitted).map
          (·.row.date) from mkEvents_map_date _ none]
      exact List.pairwise_map.mpr h2
    exact List.pairwise_map.mp h3

/-- C6: in every non-empty output the first breakthrough event has NaN time
difference and NaN speed (not zero), and each later event has `time_diff`
equal to the hours elapsed since the previous emitted event, `prev_max`
equal to the previous event's cumulative maximum, `distance_diff` equal to
the difference of the consecutive cumulative maxima in metres, and `speed`
equal to `distance_diff` divided by `time_diff`. -/
theorem speed_formula (rows : List DailyRow) :
    ((process_speed_data rows).head?.elim True
      (fun e => e.time_diff = PVal.nan ∧ e.speed = PVal.nan)) ∧
    List.Chain' eventsRel (process_speed_data rows) := by
  exact ⟨mkEvents_head_nan _, mkEvents_chain _ none (processed_chain _)⟩

/-- C10: two rows with the same date (e.g. two satellites on one day), each
exceeding the running maximum, are both emitted; the second event then has a
zero time difference and a positive distance difference, and the unguarded
float division yields positive infinity rather than raising an error. -/
theorem same_day_divide_by_zero (t d1 d2 : ℚ) (h1 : 0 < d1) (h2 : d1 < d2) :
    ∃ e1 e2, process_speed_data [⟨t, d1⟩, ⟨t, d2⟩] = [e1, e2] ∧
      e2.time_diff = PVal.fin 0 ∧ e2.distance_diff = (d2 - d1) * 1000 ∧
      0 < e2.distance_diff ∧ e2.speed = PVal.pinf := by
  have hdd : 0 < (d2 - d1) * 1000 := by
    have : 0 < d2 - d1 := sub_pos.mpr h2
    nlinarith
  have htd : (t - t) / 3600 = (0 : ℚ) := by simp
  have hsort : List.insertionSort dateLe [(⟨t, d1⟩ : DailyRow), ⟨t, d2⟩] =
      [⟨t, d1⟩, ⟨t, d2⟩] := by
    simp [List.insertionSort, List.orderedInsert, dateLe]
  have hfil : (annotate [(⟨t, d1⟩ : DailyRow), ⟨t, d2⟩] none).filter emitted =
      [⟨⟨t, d1⟩, d1, 0⟩, ⟨⟨t, d2⟩, d2, d1⟩] := by
    rw [annotate_cons_none, annotate_cons_some]
    rw [max_eq_right (le_of_lt h2)]
    rw [List.filter_cons_of_pos (by simpa [emitted] using h1),
      List.filter_cons_of_pos (by simpa [emitted] using h2)]
    rfl
  have hspeed : pdiv ((d2 - d1) * 1000) (PVal.fin 0) = PVal.pinf := by
    simp [pdiv, hdd]
  refine ⟨⟨t, d1, 0, PVal.nan, (d1 - 0) * 1000, PVal.nan⟩,
    ⟨t, d2, d1, PVal.fin 0, (d2 - d1) * 1000, PVal.pinf⟩, ?_, rfl, rfl, hdd, rfl⟩
  show mkEvents ((annotate (List.insertionSort dateLe [⟨t, d1⟩, ⟨t, d2⟩]) none).filter
    emitted) none = _
  rw [hsort, hfil]
  simp only [mkEvents, htd]
  rw [hspeed]
  exact rfl

/-- Witness for C10 at the concrete input of two same-day rows at distances
1 km and 2 km. -/
theorem same_day_divide_by_zero_witness :
    ∃ e1 e2, process_speed_data [⟨0, 1⟩, ⟨0, 2⟩] = [e1, e2] ∧
      e2.time_diff = PVal.fin 0 ∧ e2.distance_diff = (2 - 1) * 1000 ∧
      0 < e2.distance_diff ∧ e2.speed = PVal.pinf :=
  same_day_divide_by_zero 0 1 2 (by norm_num) (by norm_num)

/-! ### Distance tagging and filtering (src/LavaFlow_mapper.py, get_layout) -/

/-- One detection of the combined archive union loaded by
`load_and_tag_data`, after numeric coercion succeeded. -/
structure TaggedRecord where
  latitude : ℚ
  longitude : ℚ
  frp : ℚ
  track : ℚ
  acq_date : ℕ
  acq_time : ℕ
deriving DecidableEq, Repr

/-- The acquisition timestamp built on line 60-62: the date combined with the
zero-padded time of day.  Encoded as `date * 10000 + HHMM`, which orders
pairs (date, time) exactly as the datetime does since the time field is
below 10000. -/
def acqTs (r : TaggedRecord) : ℕ := r.acq_date * 10000 + r.acq_time

/-- Timestamp order used by `sort_values(date)` (line 86). -/
def tsLe (a b : TaggedRecord) : Prop := acqTs a ≤ acqTs b

instance : DecidableRel tsLe := fun a b => inferInstanceAs (Decidable (acqTs a ≤ acqTs b))

instance : IsTotal TaggedRecord tsLe := ⟨fun a b => Nat.le_total (acqTs a) (acqTs b)⟩

instance : IsTrans TaggedRecord tsLe := ⟨fun _ _ _ h1 h2 => Nat.le_trans h1 h2⟩

/-- The filter predicate of lines 84-86: track at most the threshold, frp at
least the threshold, timestamp inside the window. -/
def filterPredicate (maxTrack minFrp : ℚ) (startTs endTs : ℕ) (r : TaggedRecord) : Bool :=
  decide (r.track ≤ maxTrack) && decide (minFrp ≤ r.frp) &&
    decide (startTs ≤ acqTs r) && decide (acqTs r ≤ endTs)

/-- Lines 84-86: filter the combined archive union and sort by timestamp. -/
def tagFilter (comb : List TaggedRecord) (maxTrack minFrp : ℚ)
    (startTs endTs : ℕ) : List TaggedRecord :=
  List.insertionSort tsLe (comb.filter (filterPredicate maxTrack minFrp startTs endTs))

/-- C8: the filtered output contains exactly the records of the archive union
that pass the track, frp and time-window tests (as a permutation of the
filtered input, and membership-wise), and it is sorted by ascending
acquisition timestamp. -/
theorem tag_filter_exact (comb : List TaggedRecord) (mt mf : ℚ) (s e : ℕ) :
    (tagFilter comb mt mf s e).Perm (comb.filter (filterPredicate mt mf s e)) ∧
    List.Sorted tsLe (tagFilter comb mt mf s e) ∧
    ∀ r, r ∈ tagFilter comb mt mf s e ↔
      r ∈ comb ∧ r.track ≤ mt ∧ mf ≤ r.frp ∧ s ≤ acqTs r ∧ acqTs r ≤ e := by
  refine ⟨List.perm_insertionSort tsLe _, List.sorted_insertionSort tsLe _, fun r => ?_⟩
  unfold tagFilter
  rw [(List.perm_insertionSort tsLe _).mem_iff, List.mem_filter]
  simp [filterPredicate, and_assoc]

/-- The configuration fields consumed by `get_layout`; `none` models a key
missing from config.txt (or config.txt itself missing, in which case all
fields are `none`). -/
structure TagConfig where
  lats_vent : Option ℚ
  longs_vent : Option ℚ
  filter_track : Option ℚ
  filter_frp : Option ℚ
deriving DecidableEq, Repr

/-- The error the spec demands for a missing or invalid reference point or
thresholds. -/
inductive ConfigError where
  | missingReferenceOrThresholds : ConfigError
deriving DecidableEq, Repr

/-- The configuration consumption of `get_layout` (lines 73-96): every field
is read with `cfg.get(key, default)` — lats_vent/longs_vent default to 0.0,
filter_track to 1.0, filter_frp to 0.0 — after which filtering and the
distance computation proceed.  No configuration check is performed, so the
run always succeeds; the `Except` codomain records that an aborting error
is possible in principle but never produced. -/
def tagRun (cfg : TagConfig) (comb : List TaggedRecord) (startTs endTs : ℕ) :
    Except ConfigError (List TaggedRecord × ℚ × ℚ) :=
  Except.ok (tagFilter comb (cfg.filter_track.getD 1) (cfg.filter_frp.getD 0)
    startTs endTs, (cfg.lats_vent.getD 0, cfg.longs_vent.getD 0))

/-- C9 counterexample: with the reference point and both thresholds missing
from the configuration, the tagging run does not fail — it proceeds and
returns a result (with the default reference point (0, 0)). -/
theorem missing_config_does_not_fail :
    tagRun ⟨none, none, none, none⟩ [] 0 0 = Except.ok ([], 0, 0) := rfl

/-- C9 (amended): the tagging run never raises a configuration error; when
the reference point or the thresholds are missing it proceeds with the
defaults — reference point (0.0, 0.0), max track 1.0, min frp 0.0 — instead
of failing. -/
theorem tagging_never_fails (cfg : TagConfig) (comb : List TaggedRecord) (s e : ℕ) :
    (∃ v, tagRun cfg comb s e = Except.ok v) ∧
    tagRun ⟨none, none, none, none⟩ comb s e =
      tagRun ⟨some 0, some 0, some 1, some 0⟩ comb s e :=
  ⟨⟨_, rfl⟩, rfl⟩

/-! ### Haversine distance (src/LavaFlow_mapper.py, lines 90-96) -/

/-- The distance computation of lines 91-96: degrees are scaled by
`p = pi / 180`, then
`a = sin((lat2 - lat1) / 2) ^ 2 + cos(lat1) * cos(lat2) * sin((lon2 - lon1) / 2) ^ 2`
on the scaled angles and the distance is `R_earth * 2 * arcsin(sqrt(a))`
with `R_earth = 6371.0`. -/
noncomputable def haversine_distance_km (lat1 lon1 lat2 lon2 : ℝ) : ℝ :=
  6371.0 * 2 * Real.arcsin (Real.sqrt
    (Real.sin ((lat2 * (Real.pi / 180) - lat1 * (Real.pi / 180)) / 2) ^ 2 +
      Real.cos (lat1 * (Real.pi / 180)) * Real.cos (lat2 * (Real.pi / 180)) *
        Real.sin ((lon2 * (Real.pi / 180) - lon1 * (Real.pi / 180)) / 2) ^ 2))

/-- Modelled from the spec text: the great-circle Haversine distance
`2 * R * asin(sqrt(sin(dlat / 2) ^ 2 + cos(lat1) * cos(lat2) * sin(dlon / 2) ^ 2))`
with mean Earth radius R = 6371.0 km and all angles in radians. -/
noncomputable def haversineSpec (lat1 lon1 lat2 lon2 : ℝ) : ℝ :=
  2 * 6371.0 * Real.arcsin (Real.sqrt
    (Real.sin ((lat2 * (Real.pi / 180) - lat1 * (Real.pi / 180)) / 2) ^ 2 +
      Real.cos (lat1 * (Real.pi / 180)) * Real.cos (lat2 * (Real.pi / 180)) *
        Real.sin ((lon2 * (Real.pi / 180) - lon1 * (Real.pi / 180)) / 2) ^ 2))

/-- C7: the tagged distance is the great-circle Haversine formula of the
spec, and at reference point (0, 0) and a detection at (0, 0.01 degrees) it
is about 1.11 km, within one percent. -/
theorem haversine_correct :
    (∀ lat1 lon1 lat2 lon2 : ℝ, haversine_distance_km lat1 lon1 lat2 lon2 =
      haversineSpec lat1 lon1 lat2 lon2) ∧
    |haversine_distance_km 0 0 0 (1 / 100) - 1.11| ≤ 1.11 / 100 := by
  constructor
  · intro lat1 lon1 lat2 lon2
    unfold haversine_distance_km haversineSpec
    ring
  · have hpi := Real.pi_pos
    have hθ0 : (0 : ℝ) ≤ Real.pi / 36000 := by positivity
    have hθpi : Real.pi / 36000 ≤ Real.pi := by linarith
    have hθhalf : Real.pi / 36000 ≤ Real.pi / 2 := by linarith
    have hθneg : -(Real.pi / 2) ≤ Real.pi / 36000 := by linarith
    have hval : haversine_distance_km 0 0 0 (1 / 100) =
        6371.0 * 2 * (Real.pi / 36000) := by
      unfold haversine_distance_km
      rw [show (0 : ℝ) * (Real.pi / 180) = 0 from by ring]
      rw [show ((0 : ℝ) - 0) / 2 = 0 from by norm_num]
      rw [show ((1 / 100 : ℝ) * (Real.pi / 180) - 0) / 2 = Real.pi / 36000 from by ring]
      rw [Real.sin_zero, Real.cos_zero]
      rw [show (0 : ℝ) ^ 2 + 1 * 1 * Real.sin (Real.pi / 36000) ^ 2 =
        Real.sin (Real.pi / 36000) ^ 2 from by ring]
      rw [Real.sqrt_sq_eq_abs,
        abs_of_nonneg (Real.sin_nonneg_of_nonneg_of_le_pi hθ0 hθpi),
        Real.arcsin_sin hθneg hθhalf]
    rw [hval, abs_le]
    constructor
    · nlinarith [Real.pi_gt_d6]
    · nlinarith [Real.pi_lt_d6]

end LavaFlow
